import Mathlib

/-!
Verification of the pyBOAT numerical core (`pyboat/core.py`).

This file gives a shallow embedding of the parts of `core.py` needed to
settle the specification claims: the simulated-annealing ridge tracer
(`find_ridge_anneal` / `cost_func_anneal`), ridge evaluation
(`eval_ridge`), the cone-of-influence crossing test
(`find_COI_crossing` / `Morlet_COI`), the period-to-scale conversion
(`scales_from_periods`), the amplitude estimator (`power_to_amplitude`)
and the sinc detrending filter (`sinc_filter` / `smooth` / `sinc_smooth`).

Machine floats are modelled by real numbers; numpy arrays by lists;
numpy fancy indexing by `List.getD`; Python exceptions by `Option`
results (`none` = the call raises).  The external SciPy routine
`savgol_filter` is modelled as an abstract function parameter `sg`,
since its internals are not part of this repository; theorems about
`eval_ridge` quantify over it.

The file is organized as definitions first, then theorems.
-/

open Real

noncomputable section

/-! ## Generic list helpers (mean, variance, diff, valid convolution) -/

/-- Arithmetic mean of a list, `np.mean`. -/
def listMean (xs : List ℝ) : ℝ := xs.sum / xs.length

/-- Population variance of a list, `np.var`. -/
def listVar (xs : List ℝ) : ℝ :=
  ((xs.map fun x => (x - listMean xs) ^ 2).sum) / xs.length

/-- First difference of an integer list, `np.diff(ys, 1)`. -/
def listDiff (ys : List ℤ) : List ℤ :=
  (ys.zip ys.tail).map fun p => p.2 - p.1

/-- `np.convolve(a, v, mode="valid")` for a kernel `a` no longer than `v`:
entry `k` is the sum over the kernel of `a[j] * v[k + len a - 1 - j]`. -/
def convolveValid (a v : List ℝ) : List ℝ :=
  (List.range (v.length + 1 - a.length)).map fun k =>
    ((List.range a.length).map fun j => a.getD j 0 * v.getD (k + a.length - 1 - j) 0).sum

/-- `x mod y` on reals as numpy's `%` computes it for positive `y`,
mapping into `[0, y)`. -/
def realMod (x y : ℝ) : ℝ := x - y * ⌊x / y⌋

/-! ## Simulated annealing ridge tracer (`find_ridge_anneal`, core.py 214-317) -/

/-- `cost_func_anneal(ys, t_inds, landscape, l, m)` (core.py 303-317):
negative summed landscape along the ridge plus weighted absolute first
and second differences, divided by the ridge length. -/
def cost_func_anneal (ys : List ℤ) (landscape : ℤ → ℕ → ℝ) (l m : ℝ) : ℝ :=
  (-(((ys.enum).map fun p => landscape p.2 p.1).sum)
    + l * (((listDiff ys).map fun d => |(d : ℝ)|).sum)
    + m * (((listDiff (listDiff ys)).map fun d => |(d : ℝ)|).sum)) / ys.length

/-- The candidate ridge after the random wiggle `ys[pos] = ys[pos] + eps`
(core.py 271). -/
def candidateRidge (ys : List ℤ) (pos : ℕ) (eps : ℤ) : List ℤ :=
  ys.set pos (ys.getD pos 0 + eps)

/-- The jump `eps` selected at core.py 261-269: a forced inward step of
`-1` at the upper boundary, `+1` at the lower boundary, and otherwise the
random draw `r` from `incr = [-mx_jump..mx_jump]` with the zero removed. -/
def chooseEps (Ns mx y r : ℤ) : ℤ :=
  if Ns - mx - 1 ≤ y then -1 else if y < mx then 1 else r

open Classical in
/-- One Metropolis update of `find_ridge_anneal` (core.py 271-290):
wiggle entry `pos` by `eps`, compare costs, and accept unless the move
increased the cost and the uniform draw `u` exceeds the Boltzmann
probability, in which case the wiggle is reverted. -/
def annealStep (landscape : ℤ → ℕ → ℝ) (cp T u : ℝ) (ys : List ℤ)
    (pos : ℕ) (eps : ℤ) : List ℤ :=
  if cost_func_anneal ys landscape 0 cp <
        cost_func_anneal (candidateRidge ys pos eps) landscape 0 cp
      ∧ Real.exp (-(cost_func_anneal (candidateRidge ys pos eps) landscape 0 cp -
            cost_func_anneal ys landscape 0 cp) / T) < u
  then ys else candidateRidge ys pos eps

/-- The value held by the loop variable `T_k` during iteration `k` of
`find_ridge_anneal`: it starts at the (pre-scaled) `T_ini` (core.py 250)
and is reassigned to `T_ini / log(2 + k)` at the END of iteration `k`
(core.py 293), so iteration `k + 1` runs with `T_ini / log(2 + k)`. -/
def tempSeq (T0 : ℝ) : ℕ → ℝ
  | 0 => T0
  | (k + 1) => T0 / Real.log (2 + (k : ℝ))

/-- One random draw package of the annealing loop: the chosen time
position (core.py 256), the jump drawn from `incr` (core.py 269) and the
uniform variate of the Metropolis test (core.py 279). -/
structure AnnealDraw where
  pos : ℕ
  r : ℤ
  u : ℝ

/-- One full iteration of the annealing loop body at temperature `Tk`:
boundary-aware jump selection followed by the Metropolis update. -/
def annealIter (landscape : ℤ → ℕ → ℝ) (cp Tk : ℝ) (Ns mx : ℤ)
    (ys : List ℤ) (d : AnnealDraw) : List ℤ :=
  annealStep landscape cp Tk d.u ys d.pos (chooseEps Ns mx (ys.getD d.pos 0) d.r)

/-- The annealing loop from iteration `k` on, consuming one random draw
per iteration and updating the temperature as `tempSeq` prescribes. -/
def annealRunFrom (landscape : ℤ → ℕ → ℝ) (cp T0 : ℝ) (Ns mx : ℤ) :
    List AnnealDraw → ℕ → List ℤ → List ℤ
  | [], _, ys => ys
  | d :: ds, k, ys =>
      annealRunFrom landscape cp T0 Ns mx ds (k + 1)
        (annealIter landscape cp (tempSeq T0 k) Ns mx ys d)

/-- `find_ridge_anneal(landscape, y0, T_ini, Nsteps, mx_jump, curve_pen)`
restricted to its ridge state: the straight-line start `y0 * ones(Nt)`
(core.py 240) evolved through the draws, with the fixed `tfac = 0.01`
pre-scaling of both `T_ini` and `curve_pen` (core.py 246-248). -/
def annealRun (landscape : ℤ → ℕ → ℝ) (cp T0 : ℝ) (Ns mx y0 : ℤ)
    (Nt : ℕ) (draws : List AnnealDraw) : List ℤ :=
  annealRunFrom landscape (0.01 * cp) (0.01 * T0) Ns mx draws 0 (List.replicate Nt y0)

/-- A landscape that is zero everywhere, used for concrete instantiations. -/
def zeroLandscape : ℤ → ℕ → ℝ := fun _ _ => 0

/-! ## Scale conversion and amplitude estimate (core.py 512-516, 602-619) -/

/-- `scales_from_periods(periods, sfreq, omega0)` (core.py 512-516), the
strictly admissible Torrence-Compo conversion, applied to one period. -/
def scales_from_periods (period sfreq om0 : ℝ) : ℝ :=
  (om0 + Real.sqrt (2 + om0 ^ 2)) * period * sfreq / (4 * Real.pi)

/-- `power_to_amplitude(periods, powers, signal_std, dt)` (core.py
602-619): the Lilly (2010) analytic-wavelet amplitude estimate, applied
to one ridge point.  The default central frequency `omega0 = 2 * pi` is
used by the inner `scales_from_periods` call. -/
def power_to_amplitude (period power signal_std dt : ℝ) : ℝ :=
  Real.sqrt power *
    (1 / Real.sqrt (scales_from_periods period (1 / dt) (2 * Real.pi)) *
      Real.pi ^ (-(1 : ℝ) / 4) * signal_std * Real.sqrt 2)

/-! ## Ridge evaluation (`eval_ridge`, core.py 106-182) -/

/-- The tabular result of `eval_ridge`: the columns of the returned
`ridge_data` DataFrame, one entry per retained time point. -/
structure RidgeData where
  time : List ℝ
  periods : List ℝ
  phase : List ℝ
  amplitude : List ℝ
  power : List ℝ
  frequencies : List ℝ

/-- The ridge power at time `t`: `modulus[ridge_y[t], t]` where
`modulus = |wlet|^2 / var(signal)` (core.py 131-142). -/
def ridgePower (wlet : ℕ → ℕ → ℂ) (signal : List ℝ) (ridge_y : List ℕ)
    (t : ℕ) : ℝ :=
  Complex.abs (wlet (ridge_y.getD t 0) t) ^ 2 / listVar signal

/-- The instantaneous period at time `t`: `periods[ridge_y[t]]`
(core.py 139). -/
def ridgePeriod (ridge_y : List ℕ) (periods : List ℝ) (t : ℕ) : ℝ :=
  periods.getD (ridge_y.getD t 0) 0

open Classical in
/-- The retained time indices: the boolean mask
`inds = ridge_power > power_thresh` of core.py 144-146, as the sublist of
`range Nt` (with `Nt = len(signal)`) it selects. -/
def keptIdx (wlet : ℕ → ℕ → ℂ) (signal : List ℝ) (ridge_y : List ℕ)
    (power_thresh : ℝ) : List ℕ :=
  (List.range signal.length).filter fun t =>
    decide (power_thresh < ridgePower wlet signal ridge_y t)

/-- The window length `eval_ridge` actually hands to `savgol_filter` at
core.py 164: the caller's `smoothing_wsize` unchanged.  The sanitized
value computed at core.py 159-161 (see `ridgeSmoothingShrink`) is stored
in a local that is never read again. -/
def evalRidgeSavgolWindow (_Ntt wsize : ℕ) : ℕ := wsize

/-- The sanitized smoothing window computed (but never used) at core.py
159-161: when the ridge is shorter than the requested window, the largest
odd value not exceeding the ridge length. -/
def ridgeSmoothingShrink (Ntt wsize : ℕ) : Option ℕ :=
  if Ntt < wsize then some (if Ntt % 2 = 1 then Ntt else Ntt - 1) else none

/-- `eval_ridge(ridge_y, wlet, signal, periods, tvec, power_thresh,
smoothing_wsize)` (core.py 106-182).  `sg` models the external
`scipy.signal.savgol_filter` with `polyorder = 3` as an abstract
function from the full period trace and the window length to the
smoothed trace.  Amplitudes are computed from the masked unsmoothed
periods (core.py 151) before the smoothing block (core.py 155-164)
overwrites the masked period trace. -/
def eval_ridge (wlet : ℕ → ℕ → ℂ) (signal : List ℝ) (ridge_y : List ℕ)
    (periods tvec : List ℝ) (power_thresh : ℝ) (smoothing_wsize : Option ℕ)
    (sg : List ℝ → ℕ → List ℝ) : RidgeData :=
  let Nt := signal.length
  let dt := tvec.getD 1 0 - tvec.getD 0 0
  let kept := keptIdx wlet signal ridge_y power_thresh
  let per_final :=
    match smoothing_wsize with
    | none => kept.map fun t => ridgePeriod ridge_y periods t
    | some w =>
        let full := (List.range Nt).map fun t => ridgePeriod ridge_y periods t
        let sm := sg full (evalRidgeSavgolWindow Nt w)
        kept.map fun t => sm.getD t 0
  { time := kept.map fun t => tvec.getD t 0
    periods := per_final
    phase := kept.map fun t =>
      realMod (Complex.arg (wlet (ridge_y.getD t 0) t)) (2 * Real.pi)
    amplitude := kept.map fun t =>
      power_to_amplitude (ridgePeriod ridge_y periods t)
        (ridgePower wlet signal ridge_y t) (Real.sqrt (listVar signal)) dt
    power := kept.map fun t => ridgePower wlet signal ridge_y t
    frequencies := per_final.map fun p => 1 / p }

/-! ## Cone-of-influence crossing (`find_COI_crossing`, core.py 185-208) -/

/-- `Morlet_COI(omega0)` (core.py 596-599): the slope of the Morlet
e-folding cone in the period-time view. -/
def Morlet_COI (om0 : ℝ) : ℝ :=
  4 * Real.pi / (Real.sqrt 2 * (om0 + Real.sqrt (2 + om0 ^ 2)))

open Classical in
/-- `find_COI_crossing(rd)` (core.py 185-208) on the `time` and `periods`
columns of the ridge data (the DataFrame index is the default
`0..n-1`).  The left candidate set keeps the rows with
`coi_left > periods` false and is read at position `-1`; the right
candidate set keeps rows with `coi_right < periods` (`coi_right` built on
the reversed time array) and is read at position `0`.  An empty selection
makes the Python indexing raise `IndexError`, modelled here as `none`. -/
def find_COI_crossing (times periods : List ℝ) : Option (ℕ × ℕ) :=
  match ((List.range times.length).filter fun i =>
      decide (¬ (periods.getD i 0 < Morlet_COI (2 * Real.pi) * times.getD i 0))).getLast?,
    ((List.range times.length).filter fun i =>
      decide (Morlet_COI (2 * Real.pi) * times.reverse.getD i 0 < periods.getD i 0)).head? with
  | some a, some b => some (a, b)
  | _, _ => none

/-! ## Sinc filter detrending (`sinc_filter`, `smooth`, `sinc_smooth`, core.py 323-437) -/

/-- The unnormalized windowed-sinc kernel values of `sinc_filter`
(core.py 390-402): the Blackman-windowed sinc at `x = 0 .. M`, with the
removable singularity at `x = M/2` replaced by `2 * pi * f_c`. -/
def sincKernelRaw (M : ℕ) (f_c : ℝ) : List ℝ :=
  (List.range (M + 1)).map fun x =>
    if 2 * x = M then 2 * Real.pi * f_c
    else Real.sin (2 * Real.pi * f_c * ((x : ℝ) - M / 2)) / ((x : ℝ) - M / 2) *
      (0.42 - 0.5 * Real.cos (2 * Real.pi * x / M) + 0.08 * Real.cos (4 * Real.pi * x / M))

/-- `sinc_filter(M, f_c)` (core.py 377-407): requires `M` even (the
`assert` is modelled as `none`), and returns the kernel normalized to
unit sum, of length `M + 1`. -/
def sinc_filter (M : ℕ) (f_c : ℝ) : Option (List ℝ) :=
  if M % 2 ≠ 0 then none
  else some ((sincKernelRaw M f_c).map fun r => r / (sincKernelRaw M f_c).sum)

/-- `smooth(x, data=w)` (core.py 323-374), the externally-evaluated
window path used by `sinc_smooth`: `window_len = len(w)`; the three
`ValueError` guards are modelled as `none`; then the signal is mirrored
at both ends (`np.r_[x[window_len-1:0:-1], x, x[-1:-window_len:-1]]`),
convolved in "valid" mode with the unit-sum kernel, and trimmed by
`(window_len-1)/2` on each side. -/
def smooth (x w : List ℝ) : Option (List ℝ) :=
  if x.length < w.length then none
  else if w.length < 3 then none
  else if w.length % 2 = 0 then none
  else some
    ((convolveValid (w.map fun v => v / w.sum)
        (((x.take w.length).drop 1).reverse ++ x ++
          (x.drop (x.length - w.length + 1)).reverse)).drop ((w.length - 1) / 2) |>.take
      ((convolveValid (w.map fun v => v / w.sum)
        (((x.take w.length).drop 1).reverse ++ x ++
          (x.drop (x.length - w.length + 1)).reverse)).length - 2 * ((w.length - 1) / 2)))

/-- The default kernel length of `sinc_smooth` (core.py 426-432):
`len(signal) - 1`, decremented once more if odd. -/
def sincSmoothDefaultM (N : ℕ) : ℕ :=
  if (N - 1) % 2 ≠ 0 then N - 2 else N - 1

/-- `sinc_smooth(raw_signal, T_c, dt, M)` (core.py 410-437): relative
cutoff `f_c = dt / T_c`, windowed-sinc kernel, then `smooth` with the
kernel as external window data. -/
def sinc_smooth (raw : List ℝ) (T_c dt : ℝ) (Mopt : Option ℕ) : Option (List ℝ) :=
  match sinc_filter (Mopt.getD (sincSmoothDefaultM raw.length)) (dt / T_c) with
  | none => none
  | some w => smooth raw w

/-! ## Claim C2: the annealing temperature schedule -/

/-- Claim C2 counterexample: the claimed schedule `T_ini / ln(2+k)` is
wrong at iteration 0, where the code still uses `T_ini` itself, and the
sequence of temperatures actually used is not monotonically decreasing:
it increases from iteration 0 to iteration 1 because `ln 2 < 1`. -/
theorem claim_C2_counterexample :
    tempSeq 1 0 ≠ 1 / Real.log (2 + ((0 : ℕ) : ℝ)) ∧ tempSeq 1 0 < tempSeq 1 1 := by
  have hpos : 0 < Real.log 2 := Real.log_pos (by norm_num)
  have hlt : Real.log 2 < 1 := by
    have := Real.log_two_lt_d9
    linarith
  have hgt : (1 : ℝ) < 1 / Real.log 2 := by
    rw [lt_div_iff₀ hpos]
    linarith
  constructor
  · simp only [tempSeq, Nat.cast_zero, add_zero]
    exact ne_of_lt hgt
  · simp only [tempSeq, Nat.cast_zero, add_zero]
    exact hgt

/-- Claim C2 amended: in `find_ridge_anneal` the temperature used by the
Metropolis test at iteration 0 is the (pre-scaled) `T_ini` itself, and at
iteration `k ≥ 1` it is `T_ini / ln(1 + k)` — the claimed schedule shifted
by one iteration.  The sequence is strictly decreasing only from
iteration 1 onwards, and it never reaches zero. -/
theorem claim_C2_amended (T0 : ℝ) (hT : 0 < T0) :
    tempSeq T0 0 = T0
    ∧ (∀ k : ℕ, 1 ≤ k → tempSeq T0 k = T0 / Real.log (1 + (k : ℝ)))
    ∧ (∀ k : ℕ, 1 ≤ k → tempSeq T0 (k + 1) < tempSeq T0 k)
    ∧ (∀ k : ℕ, 0 < tempSeq T0 k) := by
  refine ⟨rfl, ?_, ?_, ?_⟩
  · rintro (_ | j) hk
    · omega
    · simp only [tempSeq]
      push_cast
      ring_nf
  · rintro (_ | j) hk
    · omega
    · simp only [tempSeq]
      have hj : (0 : ℝ) ≤ (j : ℝ) := Nat.cast_nonneg j
      have h2 : (1 : ℝ) < 2 + (j : ℝ) := by linarith
      have hlog : 0 < Real.log (2 + (j : ℝ)) := Real.log_pos h2
      have hmono : Real.log (2 + (j : ℝ)) < Real.log (2 + ((j : ℝ) + 1)) := by
        apply Real.log_lt_log (by positivity)
        linarith
      have := div_lt_div_of_pos_left hT hlog hmono
      convert this using 3
      push_cast
      ring
  · rintro (_ | j)
    · exact hT
    · simp only [tempSeq]
      have hj : (0 : ℝ) ≤ (j : ℝ) := Nat.cast_nonneg j
      exact div_pos hT (Real.log_pos (by linarith))

/-- Witness for the amended claim C2 at the concrete temperature 1. -/
theorem claim_C2_witness : tempSeq 1 0 = 1 ∧ 0 < tempSeq 1 5 :=
  ⟨(claim_C2_amended 1 one_pos).1, (claim_C2_amended 1 one_pos).2.2.2 5⟩

/-! ## Claim C5: the Metropolis acceptance rule -/

/-- Equal ridges have equal annealing costs. -/
theorem cost_congr (ys zs : List ℤ) (landscape : ℤ → ℕ → ℝ) (l m : ℝ)
    (h : ys = zs) : cost_func_anneal ys landscape l m = cost_func_anneal zs landscape l m := by
  rw [h]

/-- Claim C5: in every iteration of `find_ridge_anneal`, writing `F` for
the cost of the current ridge and `F_c` for the cost of the wiggled
candidate, a candidate whose cost does not exceed the current cost is
always kept; a cost-increasing candidate is kept exactly when the uniform
draw `u` does not exceed the Boltzmann factor `exp(-(F_c - F)/T_k)`
(hence with that probability); and on rejection the single modified entry
is reverted, leaving the ridge state exactly as before the wiggle. -/
theorem claim_C5_metropolis (landscape : ℤ → ℕ → ℝ) (cp T u : ℝ)
    (ys : List ℤ) (pos : ℕ) (eps : ℤ) :
    (cost_func_anneal (candidateRidge ys pos eps) landscape 0 cp ≤
        cost_func_anneal ys landscape 0 cp →
      annealStep landscape cp T u ys pos eps = candidateRidge ys pos eps)
    ∧ (cost_func_anneal ys landscape 0 cp <
          cost_func_anneal (candidateRidge ys pos eps) landscape 0 cp →
        (annealStep landscape cp T u ys pos eps = candidateRidge ys pos eps ↔
          u ≤ Real.exp (-(cost_func_anneal (candidateRidge ys pos eps) landscape 0 cp -
                cost_func_anneal ys landscape 0 cp) / T)))
    ∧ (cost_func_anneal ys landscape 0 cp <
          cost_func_anneal (candidateRidge ys pos eps) landscape 0 cp →
        Real.exp (-(cost_func_anneal (candidateRidge ys pos eps) landscape 0 cp -
              cost_func_anneal ys landscape 0 cp) / T) < u →
        annealStep landscape cp T u ys pos eps = ys) := by
  classical
  unfold annealStep
  set F := cost_func_anneal ys landscape 0 cp with hF
  set cand := candidateRidge ys pos eps with hcand
  set F_c := cost_func_anneal cand landscape 0 cp with hFc
  refine ⟨?_, ?_, ?_⟩
  · intro hle
    rw [if_neg]
    rintro ⟨hlt, -⟩
    exact absurd hle (not_le.mpr hlt)
  · intro hlt
    constructor
    · intro heq
      by_contra hu
      push_neg at hu
      rw [if_pos ⟨hlt, hu⟩] at heq
      have : F = F_c := cost_congr ys cand landscape 0 cp heq
      exact absurd hlt (not_lt.mpr this.ge)
    · intro hu
      rw [if_neg]
      rintro ⟨-, hgt⟩
      exact absurd hu (not_le.mpr hgt)
  · intro hlt hu
    rw [if_pos ⟨hlt, hu⟩]

/-- Witness for claim C5: on the all-zero landscape the wiggle never
changes the cost, so the candidate is kept. -/
theorem claim_C5_witness :
    annealStep zeroLandscape 0 1 (1 / 2) [1, 1] 0 1 = candidateRidge [1, 1] 0 1 := by
  apply (claim_C5_metropolis zeroLandscape 0 1 (1 / 2) [1, 1] 0 1).1
  have h1 : cost_func_anneal [1, 1] zeroLandscape 0 0 = 0 := by
    simp [cost_func_anneal, zeroLandscape, listDiff]
  have h2 : candidateRidge [1, 1] 0 1 = [2, 1] := by rfl
  have h3 : cost_func_anneal [2, 1] zeroLandscape 0 0 = 0 := by
    simp [cost_func_anneal, zeroLandscape, listDiff]
  rw [h1, h2, h3]

/-! ## Claim C6: the ridge stays inside the period grid -/

/-- The jump selected by `find_ridge_anneal` at a valid row `y` is
nonzero, bounded by `mx`, and lands strictly inside `[0, Ns)` whenever
`Ns ≥ mx + 2` and the random draw comes from `incr`. -/
theorem chooseEps_spec (Ns mx y r : ℤ) (hNs : mx + 2 ≤ Ns)
    (h0 : 0 ≤ y) (hy : y < Ns) (hr : r ≠ 0) (hrm : |r| ≤ mx) :
    chooseEps Ns mx y r ≠ 0 ∧ |chooseEps Ns mx y r| ≤ mx ∧
      0 ≤ y + chooseEps Ns mx y r ∧ y + chooseEps Ns mx y r < Ns := by
  have hmx : 1 ≤ mx := le_trans (Int.one_le_abs hr) hrm
  have habs := abs_le.mp hrm
  unfold chooseEps
  split_ifs with h1 h2
  · exact ⟨by norm_num, by rw [abs_neg, abs_one]; exact hmx, by omega, by omega⟩
  · exact ⟨one_ne_zero, by rw [abs_one]; exact hmx, by omega, by omega⟩
  · exact ⟨hr, hrm, by omega, by omega⟩

/-- Every entry of the ridge produced by one Metropolis update is either
an old entry or the wiggled value. -/
theorem annealStep_mem (landscape : ℤ → ℕ → ℝ) (cp T u : ℝ)
    (ys : List ℤ) (pos : ℕ) (eps : ℤ) :
    ∀ x ∈ annealStep landscape cp T u ys pos eps,
      x ∈ ys ∨ x = ys.getD pos 0 + eps := by
  classical
  intro x hx
  unfold annealStep at hx
  split_ifs at hx
  · exact Or.inl hx
  · exact List.mem_or_eq_of_mem_set hx

/-- A position read with `getD` from a ridge whose entries lie in
`[0, Ns)` is itself in `[0, Ns)`, provided `0 < Ns` (out-of-range reads
give the default `0`). -/
theorem getD_range (ys : List ℤ) (pos : ℕ) (Ns : ℤ) (hNs : 0 < Ns)
    (hys : ∀ y ∈ ys, 0 ≤ y ∧ y < Ns) :
    0 ≤ ys.getD pos 0 ∧ ys.getD pos 0 < Ns := by
  by_cases hp : pos < ys.length
  · rw [List.getD_eq_getElem ys 0 hp]
    exact hys _ (List.getElem_mem hp)
  · rw [List.getD_eq_default ys 0 (le_of_not_lt hp)]
    exact ⟨le_refl 0, hNs⟩

/-- One full annealing iteration preserves the row-index invariant. -/
theorem annealIter_inv (landscape : ℤ → ℕ → ℝ) (cp Tk : ℝ) (Ns mx : ℤ)
    (ys : List ℤ) (d : AnnealDraw) (hNs : mx + 2 ≤ Ns)
    (hr : d.r ≠ 0) (hrm : |d.r| ≤ mx)
    (hys : ∀ y ∈ ys, 0 ≤ y ∧ y < Ns) :
    ∀ y ∈ annealIter landscape cp Tk Ns mx ys d, 0 ≤ y ∧ y < Ns := by
  have hmx : 1 ≤ mx := le_trans (Int.one_le_abs hr) hrm
  have h0 := getD_range ys d.pos Ns (by omega) hys
  have heps := chooseEps_spec Ns mx (ys.getD d.pos 0) d.r hNs h0.1 h0.2 hr hrm
  intro y hy
  rcases annealStep_mem landscape cp Tk d.u ys d.pos _ y hy with h | h
  · exact hys y h
  · rw [h]
    exact ⟨heps.2.2.1, heps.2.2.2⟩

/-- The annealing loop preserves the row-index invariant from any
iteration index and any valid state. -/
theorem annealRunFrom_inv (landscape : ℤ → ℕ → ℝ) (cp T0 : ℝ) (Ns mx : ℤ)
    (hNs : mx + 2 ≤ Ns) :
    ∀ (draws : List AnnealDraw) (k : ℕ) (ys : List ℤ),
      (∀ d ∈ draws, d.r ≠ 0 ∧ |d.r| ≤ mx) →
      (∀ y ∈ ys, 0 ≤ y ∧ y < Ns) →
      ∀ y ∈ annealRunFrom landscape cp T0 Ns mx draws k ys, 0 ≤ y ∧ y < Ns := by
  intro draws
  induction draws with
  | nil => intro k ys _ hys; exact hys
  | cons d ds ih =>
      intro k ys hdraws hys
      have hd := hdraws d (List.mem_cons_self d ds)
      exact ih (k + 1) _ (fun e he => hdraws e (List.mem_cons_of_mem d he))
        (annealIter_inv landscape cp (tempSeq T0 k) Ns mx ys d hNs hd.1 hd.2 hys)

/-- Claim C6: with `Ns ≥ mx_jump + 2` period rows and a valid starting
row `0 ≤ y0 < Ns`, every proposed jump of `find_ridge_anneal` is nonzero,
bounded by `mx_jump` and lands inside the grid (boundary proposals are
replaced by a forced inward step of 1), and after every iteration —
i.e. after any list of random draws from `incr` — every ridge entry is a
valid row index in `[0, Ns)`. -/
theorem claim_C6_bounds (landscape : ℤ → ℕ → ℝ) (cp T0 : ℝ)
    (Ns mx y0 : ℤ) (Nt : ℕ) (draws : List AnnealDraw)
    (hNs : mx + 2 ≤ Ns) (hy0l : 0 ≤ y0) (hy0u : y0 < Ns)
    (hdraws : ∀ d ∈ draws, d.r ≠ 0 ∧ |d.r| ≤ mx) :
    (∀ y r : ℤ, 0 ≤ y → y < Ns → r ≠ 0 → |r| ≤ mx →
      chooseEps Ns mx y r ≠ 0 ∧ |chooseEps Ns mx y r| ≤ mx ∧
        0 ≤ y + chooseEps Ns mx y r ∧ y + chooseEps Ns mx y r < Ns)
    ∧ ∀ y ∈ annealRun landscape cp T0 Ns mx y0 Nt draws, 0 ≤ y ∧ y < Ns := by
  constructor
  · intro y r h0 hy hr hrm
    exact chooseEps_spec Ns mx y r hNs h0 hy hr hrm
  · unfold annealRun
    apply annealRunFrom_inv landscape (0.01 * cp) (0.01 * T0) Ns mx hNs draws 0 _ hdraws
    intro y hy
    rw [List.eq_of_mem_replicate hy]
    exact ⟨hy0l, hy0u⟩

/-- Witness for claim C6 on a concrete 4-row landscape with one draw:
at row 1 (the upper boundary zone for `mx_jump = 2`) the selected jump is
nonzero, bounded by 2, and lands inside `[0, 4)`. -/
theorem claim_C6_witness :
    chooseEps 4 2 1 1 ≠ 0 ∧ |chooseEps 4 2 1 1| ≤ 2 ∧
      (0 : ℤ) ≤ 1 + chooseEps 4 2 1 1 ∧ 1 + chooseEps 4 2 1 1 < 4 :=
  (claim_C6_bounds zeroLandscape 0 1 4 2 1 2 [⟨0, 1, 0⟩] (by norm_num)
    (by norm_num) (by norm_num)
    (by
      intro d hd
      rw [List.mem_singleton.mp hd]
      exact ⟨one_ne_zero, by norm_num⟩)).1
    1 1 (by norm_num) (by norm_num) one_ne_zero (by norm_num)

/-! ## Claim C7: scale conversion formula and monotonicity -/

/-- Claim C7: `scales_from_periods` maps a period to
`(om0 + sqrt(2 + om0^2)) * period * sfreq / (4 * pi)`, and for positive
sampling frequency the scale is strictly increasing in the period. -/
theorem claim_C7_scales (sfreq om0 : ℝ) (hs : 0 < sfreq) :
    (∀ p, scales_from_periods p sfreq om0 =
        (om0 + Real.sqrt (2 + om0 ^ 2)) * p * sfreq / (4 * Real.pi))
    ∧ ∀ p q : ℝ, p < q →
        scales_from_periods p sfreq om0 < scales_from_periods q sfreq om0 := by
  refine ⟨fun p => rfl, ?_⟩
  intro p q hpq
  have hsq : Real.sqrt (2 + om0 ^ 2) ^ 2 = 2 + om0 ^ 2 :=
    Real.sq_sqrt (by positivity)
  have hC : 0 < om0 + Real.sqrt (2 + om0 ^ 2) := by
    nlinarith [Real.sqrt_nonneg (2 + om0 ^ 2)]
  unfold scales_from_periods
  apply div_lt_div_of_pos_right _ (by positivity)
  exact mul_lt_mul_of_pos_right (mul_lt_mul_of_pos_left hpq hC) hs

/-- Witness for claim C7: scales at periods 1 < 2 with unit sampling
frequency and central frequency 0. -/
theorem claim_C7_witness :
    scales_from_periods 1 1 0 < scales_from_periods 2 1 0 :=
  (claim_C7_scales 1 0 one_pos).2 1 2 one_lt_two

/-! ## Claim C4: strict thresholding and the empty no-result table -/

/-- Claim C4: `eval_ridge` retains exactly the time indices whose ridge
power strictly exceeds `power_thresh`; an index whose power equals the
threshold is dropped; and when the threshold is at or above the maximum
ridge power (every power is `≤` it) the returned table has zero rows in
every column — an empty result, not an exception (the embedding is a
total function). -/
theorem claim_C4_threshold (wlet : ℕ → ℕ → ℂ) (signal : List ℝ)
    (ridge_y : List ℕ) (periods tvec : List ℝ) (th : ℝ)
    (sg : List ℝ → ℕ → List ℝ) :
    (∀ t, t ∈ keptIdx wlet signal ridge_y th ↔
      (t < signal.length ∧ th < ridgePower wlet signal ridge_y t))
    ∧ (∀ t, t < signal.length → ridgePower wlet signal ridge_y t = th →
        t ∉ keptIdx wlet signal ridge_y th)
    ∧ ((∀ t, t < signal.length → ridgePower wlet signal ridge_y t ≤ th) →
        eval_ridge wlet signal ridge_y periods tvec th none sg =
          ⟨[], [], [], [], [], []⟩) := by
  classical
  have hmem : ∀ t, t ∈ keptIdx wlet signal ridge_y th ↔
      (t < signal.length ∧ th < ridgePower wlet signal ridge_y t) := by
    intro t
    unfold keptIdx
    rw [List.mem_filter, List.mem_range]
    simp only [decide_eq_true_eq]
  refine ⟨hmem, ?_, ?_⟩
  · intro t ht heq hin
    have := ((hmem t).mp hin).2
    rw [heq] at this
    exact lt_irrefl th this
  · intro hall
    have hkept : keptIdx wlet signal ridge_y th = [] := by
      unfold keptIdx
      rw [List.filter_eq_nil_iff]
      intro t htmem
      rw [List.mem_range] at htmem
      simp only [decide_eq_true_eq, not_lt]
      exact hall t htmem
    unfold eval_ridge
    rw [hkept]
    rfl

/-- Witness for claim C4: a two-sample signal whose ridge powers are all
1, thresholded at 2, yields the empty table. -/
theorem claim_C4_witness :
    eval_ridge (fun _ _ => 1) [0, 2] [0, 0] [1] [0, 1] 2 none (fun l _ => l) =
      ⟨[], [], [], [], [], []⟩ := by
  apply (claim_C4_threshold (fun _ _ => 1) [0, 2] [0, 0] [1] [0, 1] 2 (fun l _ => l)).2.2
  intro t ht
  have hvar : listVar [0, 2] = 1 := by
    norm_num [listVar, listMean]
  have hpow : ridgePower (fun _ _ => 1) [0, 2] [0, 0] t = 1 := by
    unfold ridgePower
    rw [hvar]
    norm_num
  rw [hpow]
  norm_num

/-! ## Claim C9: amplitudes are computed before smoothing -/

/-- Claim C9: the amplitude column of `eval_ridge` is identical with and
without a smoothing window — amplitudes are evaluated from the unsmoothed
masked ridge periods before smoothing overwrites the period trace — while
the periods column of the same call is in general different from the
unsmoothed one (witnessed by a smoothing function that changes values on
a kept row). -/
theorem claim_C9_amplitude_presmoothing :
    (∀ (wlet : ℕ → ℕ → ℂ) (signal : List ℝ) (ridge_y : List ℕ)
        (periods tvec : List ℝ) (th : ℝ) (w : ℕ) (sg : List ℝ → ℕ → List ℝ),
      (eval_ridge wlet signal ridge_y periods tvec th (some w) sg).amplitude =
        (eval_ridge wlet signal ridge_y periods tvec th none sg).amplitude)
    ∧ ∃ (wlet : ℕ → ℕ → ℂ) (signal : List ℝ) (ridge_y : List ℕ)
        (periods tvec : List ℝ) (th : ℝ) (w : ℕ) (sg : List ℝ → ℕ → List ℝ),
      (eval_ridge wlet signal ridge_y periods tvec th (some w) sg).periods ≠
        (eval_ridge wlet signal ridge_y periods tvec th none sg).periods := by
  classical
  constructor
  · intro wlet signal ridge_y periods tvec th w sg
    rfl
  · refine ⟨fun _ _ => 1, [0, 2], [0, 0], [1], [0, 1], 0, 5, fun _ _ => [7, 7], ?_⟩
    have hvar : listVar [0, 2] = 1 := by norm_num [listVar, listMean]
    have hpow : ∀ t, ridgePower (fun _ _ => 1) [0, 2] [0, 0] t = 1 := by
      intro t
      unfold ridgePower
      rw [hvar]
      norm_num
    have hkept : keptIdx (fun _ _ => 1) [0, 2] [0, 0] 0 = [0, 1] := by
      unfold keptIdx
      rw [List.filter_eq_self.mpr]
      · rfl
      · intro t htmem
        rw [hpow t]
        norm_num
    unfold eval_ridge
    rw [hkept]
    simp only [List.map_cons, List.map_nil, List.getD]
    intro hcontra
    rw [List.cons.injEq] at hcontra
    norm_num [List.getD, List.get?, ridgePeriod] at hcontra

/-! ## Claim C1: the smoothing-window shrink is computed but not applied -/

/-- Claim C1 (code bug): for a ridge of length 3 and a requested
smoothing window of 5, `eval_ridge` computes the sanitized odd window 3
(core.py 159-161) but hands the original window 5 to `savgol_filter`
(core.py 164), violating the filter's `window_length <= len(x)`
precondition instead of smoothing with the shrunk window. -/
theorem claim_C1_shrink_unused :
    ridgeSmoothingShrink 3 5 = some 3
    ∧ evalRidgeSavgolWindow 3 5 = 5
    ∧ ¬ evalRidgeSavgolWindow 3 5 ≤ 3 := by
  refine ⟨rfl, rfl, by norm_num [evalRidgeSavgolWindow]⟩

/-! ## Claim C10: empty COI selections abort instead of returning -/

/-- Claim C10: `find_COI_crossing` is partial.  If every retained row
lies inside the cone on the left edge (the left keep-mask is empty), or
every row fails the right-edge test, the empty selection is indexed at
position `-1` resp. `0` and the call raises `IndexError` — modelled as
`none` instead of a `(t_left, t_right)` pair. -/
theorem claim_C10_coi_none (times periods : List ℝ) :
    ((∀ i, i < times.length →
        periods.getD i 0 < Morlet_COI (2 * Real.pi) * times.getD i 0) →
      find_COI_crossing times periods = none)
    ∧ ((∀ i, i < times.length →
        ¬ (Morlet_COI (2 * Real.pi) * times.reverse.getD i 0 < periods.getD i 0)) →
      find_COI_crossing times periods = none) := by
  classical
  constructor
  · intro hall
    unfold find_COI_crossing
    have hleft : ((List.range times.length).filter fun i =>
        decide (¬ (periods.getD i 0 < Morlet_COI (2 * Real.pi) * times.getD i 0))) = [] := by
      rw [List.filter_eq_nil_iff]
      intro i hi
      rw [List.mem_range] at hi
      simp only [decide_eq_true_eq, not_not]
      exact hall i hi
    rw [hleft]
    rfl
  · intro hall
    unfold find_COI_crossing
    have hright : ((List.range times.length).filter fun i =>
        decide (Morlet_COI (2 * Real.pi) * times.reverse.getD i 0 < periods.getD i 0)) = [] := by
      rw [List.filter_eq_nil_iff]
      intro i hi
      rw [List.mem_range] at hi
      simp only [decide_eq_true_eq]
      exact hall i hi
    rw [hright]
    rcases ((List.range times.length).filter fun i =>
        decide (¬ (periods.getD i 0 < Morlet_COI (2 * Real.pi) * times.getD i 0))).getLast? with _ | a
    · rfl
    · rfl

/-- Witness for claim C10: a single retained row at time 10 with period 1
lies inside the left cone (`1 < COI slope * 10`), so the call aborts. -/
theorem claim_C10_witness : find_COI_crossing [10] [1] = none := by
  apply (claim_C10_coi_none [10] [1]).1
  intro i hi
  have hi0 : i = 0 := by
    simp only [List.length_cons, List.length_nil] at hi
    omega
  subst hi0
  simp only [List.getD, List.get?, Option.getD]
  have hs2 : Real.sqrt 2 < 1.5 := by
    rw [Real.sqrt_lt' (by norm_num)]
    norm_num
  have hs2pos : 0 < Real.sqrt 2 := Real.sqrt_pos.mpr (by norm_num)
  have hbig : Real.sqrt (2 + (2 * Real.pi) ^ 2) < 7 := by
    rw [Real.sqrt_lt' (by norm_num)]
    nlinarith [Real.pi_lt_d2, Real.pi_pos]
  have hbignn : 0 ≤ Real.sqrt (2 + (2 * Real.pi) ^ 2) :=
    Real.sqrt_nonneg _
  have hsum : 2 * Real.pi + Real.sqrt (2 + (2 * Real.pi) ^ 2) < 13.3 := by
    nlinarith [Real.pi_lt_d2]
  have hsumnn : 0 ≤ 2 * Real.pi + Real.sqrt (2 + (2 * Real.pi) ^ 2) := by
    positivity
  have hD : Real.sqrt 2 * (2 * Real.pi + Real.sqrt (2 + (2 * Real.pi) ^ 2)) <
      1.5 * 13.3 :=
    mul_lt_mul'' hs2 hsum (le_of_lt hs2pos) hsumnn
  have hDpos : 0 < Real.sqrt 2 * (2 * Real.pi + Real.sqrt (2 + (2 * Real.pi) ^ 2)) := by
    positivity
  unfold Morlet_COI
  rw [div_mul_eq_mul_div, lt_div_iff₀ hDpos]
  nlinarith [Real.pi_gt_d2]

/-! ## Claim C8: sinc detrending preserves the signal length -/

/-- `smooth` with an odd window of length between 3 and `len x` succeeds
and preserves the signal length. -/
theorem smooth_some_length (x w : List ℝ) (h3 : 3 ≤ w.length)
    (hle : w.length ≤ x.length) (hodd : w.length % 2 = 1) :
    ∃ l, smooth x w = some l ∧ l.length = x.length := by
  unfold smooth
  rw [if_neg (by omega), if_neg (by omega), if_neg (by omega)]
  refine ⟨_, rfl, ?_⟩
  have hconv : ∀ (a v : List ℝ), (convolveValid a v).length = v.length + 1 - a.length := by
    intro a v
    simp [convolveValid]
  simp only [List.length_take, List.length_drop, hconv, List.length_append,
    List.length_reverse, List.length_map]
  omega

/-- Claim C8: for a signal of length at least 3, `sinc_smooth` with the
default kernel length (`len(signal) - 1` rounded down to even) succeeds —
the mirrored padding, "valid" convolution and trimming go through — and
returns a trend of exactly the same length as the input signal. -/
theorem claim_C8_sinc_length (raw : List ℝ) (T_c dt : ℝ)
    (hN : 3 ≤ raw.length) :
    ∃ l, sinc_smooth raw T_c dt none = some l ∧ l.length = raw.length := by
  have hM : sincSmoothDefaultM raw.length % 2 = 0
      ∧ 2 ≤ sincSmoothDefaultM raw.length
      ∧ sincSmoothDefaultM raw.length + 1 ≤ raw.length := by
    unfold sincSmoothDefaultM
    split_ifs with h <;> omega
  unfold sinc_smooth
  simp only [Option.getD_none]
  unfold sinc_filter
  rw [if_neg (not_not.mpr hM.1)]
  have hwlen : ((sincKernelRaw (sincSmoothDefaultM raw.length) (dt / T_c)).map
      fun r => r / (sincKernelRaw (sincSmoothDefaultM raw.length) (dt / T_c)).sum).length =
      sincSmoothDefaultM raw.length + 1 := by
    simp [sincKernelRaw]
  exact smooth_some_length raw _ (by omega) (by omega) (by omega)

/-- Witness for claim C8 on the concrete three-sample signal `[0, 1, 2]`. -/
theorem claim_C8_witness :
    ∃ l, sinc_smooth [0, 1, 2] 1 1 none = some l ∧ l.length = 3 := by
  have h := claim_C8_sinc_length [0, 1, 2] 1 1 (by norm_num)
  simpa using h
